import Mathlib

/-!
# Verification of the DAG proposal mechanism

A shallow embedding of the MCMC structure-learning proposal code
(`src/mcmc/graphs/proposal.py`): the per-variable parent-set
distributions, the two structural moves (`basic_move`, `rev_move`) and
the top-level `DAGProposal.sample`.

The `DAGState` operations (adjacency, ancestor/descendant queries,
orphaning, copies) live in a module outside the repository file and are
modelled from the spec's contract for them.  Random draws are passed in
as explicit oracle arguments, and fallible Python code is modelled with
`Option` (a raised exception becomes `none`).  Log-scores are real
numbers.
-/

/-- Modelled from the spec: a DAG state is an adjacency relation over `n`
labeled nodes together with the fan-in bound stamped on the state
(the `fan_in_` attribute in the code).  `adj` is the set of directed
edges `(u, v)`, read as `u → v`, so `u` is a parent of `v`. -/
structure DAGState where
  n : Nat
  adj : Finset (Nat × Nat)
  fanIn : Nat
deriving DecidableEq

/-- Well-formed state: edges only join nodes of the graph. -/
def DAGState.WF (st : DAGState) : Prop :=
  ∀ e ∈ st.adj, e.1 < st.n ∧ e.2 < st.n

instance (st : DAGState) : Decidable st.WF :=
  decidable_of_iff (∀ e ∈ st.adj, e.1 < st.n ∧ e.2 < st.n) Iff.rfl

/-- Edge relation of an edge set. -/
def EdgeRel (E : Finset (Nat × Nat)) (a b : Nat) : Prop := (a, b) ∈ E

/-- Reachability along a nonempty directed path. -/
def Reaches (E : Finset (Nat × Nat)) (u v : Nat) : Prop :=
  Relation.TransGen (EdgeRel E) u v

/-- An edge set is acyclic when no node reaches itself. -/
def Acyclic (E : Finset (Nat × Nat)) : Prop := ∀ v, ¬ Reaches E v v

/-- One-step successors of a node set. -/
def succs (E : Finset (Nat × Nat)) (S : Finset Nat) : Finset Nat :=
  (E.filter (fun e => e.1 ∈ S)).image Prod.snd

/-- Iterated one-step expansion of a node set along the edges. -/
def reachAux : Nat → Finset (Nat × Nat) → Finset Nat → Finset Nat
  | 0, _, S => S
  | k + 1, E, S => reachAux k E (S ∪ succs E S)

/-- Modelled from the spec: the `descendants` query of the external
`DAGState` returns the strict descendants of `i`, every node reachable
from `i` by a nonempty directed path.  Iterating the one-step expansion
`n` times saturates the closure on a well-formed state. -/
def DAGState.descFinset (st : DAGState) (i : Nat) : Finset Nat :=
  reachAux st.n st.adj (succs st.adj {i})

/-- Endpoints mentioned by an edge set. -/
def nodesOf (E : Finset (Nat × Nat)) : Finset Nat :=
  E.image Prod.fst ∪ E.image Prod.snd

/-- Adding a block of edges that all point into the single node `v`. -/
def addInto (E : Finset (Nat × Nat)) (P : Finset Nat) (v : Nat) :
    Finset (Nat × Nat) :=
  E ∪ P.image (fun p => (p, v))

/-! ## DAGState operations (modelled from the spec's contract) -/

/-- Modelled from the spec: a deep copy produces an independent state;
with value semantics it is the state itself. -/
def DAGState.copy (st : DAGState) : DAGState := st

/-- Current parents of a node. -/
def DAGState.parents (st : DAGState) (v : Nat) : Finset Nat :=
  (st.adj.filter (fun e => e.2 = v)).image Prod.fst

/-- In-degree of a node, the column sum of the adjacency matrix. -/
def DAGState.indeg (st : DAGState) (v : Nat) : Nat :=
  (st.adj.filter (fun e => e.2 = v)).card

def DAGState.addEdge (st : DAGState) (u v : Nat) : DAGState :=
  { st with adj := insert (u, v) st.adj }

def DAGState.removeEdge (st : DAGState) (u v : Nat) : DAGState :=
  { st with adj := st.adj.erase (u, v) }

def DAGState.addEdges (st : DAGState) (es : Finset (Nat × Nat)) : DAGState :=
  { st with adj := st.adj ∪ es }

/-- Modelled from the spec: orphaning removes every incoming edge of the
listed nodes. -/
def DAGState.orphan (st : DAGState) (vs : List Nat) : DAGState :=
  { st with adj := st.adj.filter (fun e => e.2 ∉ vs) }

/-! ## ParentSetDistribution

The table is the ordered association list the code builds with
`OrderedDict(zip(parent_sets, probabilities))`: keys are parent sets
(finite sets of variable indices), values are unnormalized log-scores.
A condition is the Python predicate over keys, returning a boolean. -/

structure ParentSetDistribution where
  var : Nat
  table : List (Finset Nat × ℝ)

/-- The constructor: it inspects `parent_sets[0]` unconditionally (for
the frozenset conversion), so an empty key list raises an IndexError,
modelled by `none`. -/
def ParentSetDistribution.init (var : Nat) (parent_sets : List (Finset Nat))
    (probabilities : List ℝ) : Option ParentSetDistribution :=
  match parent_sets with
  | [] => none
  | _ :: _ => some ⟨var, parent_sets.zip probabilities⟩

/-- Point lookup in the table, a Python `table[item]`; a missing key
raises a KeyError, modelled by `none`. -/
def ParentSetDistribution.lookup (d : ParentSetDistribution) (ps : Finset Nat) :
    Option ℝ :=
  (d.table.find? (fun kv => decide (kv.1 = ps))).map Prod.snd

/-- The rows of the table whose key satisfies the condition. -/
def ParentSetDistribution.filtered (d : ParentSetDistribution)
    (cond : Finset Nat → Bool) : List (Finset Nat × ℝ) :=
  d.table.filter (fun kv => cond kv.1)

/-- Python's `max` over a nonempty iterable (the empty case is never
taken by the code paths modelled here). -/
noncomputable def pyMax : List ℝ → ℝ
  | [] => 0
  | x :: t => t.foldl max x

/-- Log-sum-exp in its direct form, the specification-side value. -/
noncomputable def logSumExp (l : List ℝ) : ℝ :=
  Real.log ((l.map Real.exp).sum)

/-- The `log_z` query: select the conditioned rows, return the single
score for a singleton selection, otherwise subtract the maximum,
exponentiate, sum, and add the maximum back.  An empty selection makes
`selected.max()` raise, modelled by `none`. -/
noncomputable def ParentSetDistribution.log_z (d : ParentSetDistribution)
    (cond : Finset Nat → Bool) : Option ℝ :=
  match d.filtered cond with
  | [] => none
  | [kv] => some kv.2
  | kv₁ :: kv₂ :: rest =>
      let scores := ((kv₁ :: kv₂ :: rest).map Prod.snd)
      let c := pyMax scores
      some (Real.log ((scores.map (fun s => Real.exp (s - c))).sum) + c)

/-- The `sample` query with the random draw passed as the oracle index
`k`: a singleton selection is returned with its raw score and no random
draw; a larger selection is drawn from (`k` picks the row, every row
having positive probability) and reported with the stabilized log
normalizer.  An empty selection makes the tuple unpacking raise,
modelled by `none`. -/
noncomputable def ParentSetDistribution.sample (d : ParentSetDistribution)
    (cond : Finset Nat → Bool) (k : Nat) : Option (Finset Nat × ℝ) :=
  match d.filtered cond with
  | [] => none
  | [kv] => some kv
  | kv₁ :: kv₂ :: rest =>
      let l := kv₁ :: kv₂ :: rest
      let scores := l.map Prod.snd
      let c := pyMax scores
      let z := (scores.map (fun s => Real.exp (s - c))).sum
      some ((l.getD (k % l.length) kv₁).1, Real.log z + c)

/-! ## Parent-set enumeration -/

/-- Modelled from the spec: `power_set` (defined in `core.misc`, outside
the repository file) enumerates every subset of `0..n-1` of cardinality
at most `fan_in`. -/
def power_set (n fan_in : Nat) : List (Finset Nat) :=
  ((List.range n).sublists.map List.toFinset).filter
    (fun s => decide (s.card ≤ fan_in))

/-- Candidate parent sets for one variable: the truncated power set,
keeping sets that avoid the variable and pass the optional feasibility
condition. -/
def varPsets (n fan_in : Nat) (condition : Option (Nat → Finset Nat → Bool))
    (var : Nat) : List (Finset Nat) :=
  match condition with
  | none => (power_set n fan_in).filter (fun s => decide (var ∉ s))
  | some c => (power_set n fan_in).filter (fun s => decide (var ∉ s) && c var s)

/-- Option-valued map, mirroring a Python loop that may raise at any
iteration. -/
def optionMapList (f : α → Option β) : List α → Option (List β)
  | [] => some []
  | a :: t =>
      match f a, optionMapList f t with
      | some b, some bs => some (b :: bs)
      | _, _ => none

/-- The enumeration loop `get_parent_set_distributions`: for each
variable build its candidate list, score every candidate with
`score_fn`, and construct one distribution per variable. -/
noncomputable def get_parent_set_distributions (n_vars fan_in : Nat)
    (score_fn : Nat → Finset Nat → ℝ)
    (condition : Option (Nat → Finset Nat → Bool)) :
    Option (List ParentSetDistribution) :=
  optionMapList (fun var =>
      let psets := varPsets n_vars fan_in condition var
      ParentSetDistribution.init var psets (psets.map (score_fn var)))
    (List.range n_vars)

/-! ## The structural moves -/

/-- Row-major enumeration of the positions of an `n × n` matrix, the
order `nonzero()` reports entries in. -/
def allPairs (n : Nat) : List (Nat × Nat) :=
  (List.range n).flatMap (fun u => (List.range n).map (fun v => (u, v)))

/-- Current edges of a state as the code enumerates them,
`list(zip(*state.adj.nonzero()))`. -/
def DAGState.edgeList (st : DAGState) : List (Nat × Nat) :=
  (allPairs st.n).filter (fun e => decide (e ∈ st.adj))

/-- One entry of the integer matrix `1 - identity - adj - ancestor` that
`basic_move` builds.  The ancestor matrix of the external `DAGState` is
modelled from the spec's cycle-check contract: at row `u`, column `v` it
records that `v` is an ancestor of `u`, that is `u` is a descendant of
`v`. -/
def addMatrixEntry (st : DAGState) (u v : Nat) : Int :=
  (if u = v then 0 else 1) - (if (u, v) ∈ st.adj then 1 else 0)
    - (if u ∈ st.descFinset v then 1 else 0)

/-- The addable-edge enumeration: nonzero entries of the move matrix
after zeroing every column whose in-degree has reached the fan-in.  The
fan-in is passed explicitly, as in `basic_move._n_adds`. -/
def addListWith (st : DAGState) (fan_in : Nat) : List (Nat × Nat) :=
  (allPairs st.n).filter (fun e =>
    decide (st.indeg e.2 < fan_in) && decide (addMatrixEntry st e.1 e.2 ≠ 0))

def basic_move.addList (st : DAGState) : List (Nat × Nat) :=
  addListWith st st.fanIn

def basic_move.nAdds (st : DAGState) (fan_in : Nat) : Nat :=
  (addListWith st fan_in).length

def basic_move.nDeletes (st : DAGState) : Nat :=
  st.edgeList.length

/-- What a move's `moves` method returns: `basic_move` returns a pair of
lists (so its Python `len` is always 2), `rev_move` a single list. -/
inductive MovesResult where
  | pair (addArcs deleteArcs : List (Nat × Nat))
  | single (arcs : List (Nat × Nat))

/-- Python's `len` of a `moves` result: the length of a 2-tuple is 2
whatever the two lists hold. -/
def pyLen : MovesResult → Nat
  | .pair _ _ => 2
  | .single arcs => arcs.length

def basic_move.moves (st : DAGState) : MovesResult :=
  .pair (basic_move.addList st) st.edgeList

def rev_move.moves (st : DAGState) : MovesResult :=
  .single st.edgeList

/-- The add/delete proposal.  The two random draws are oracle arguments:
`mv` is the move type (`false` = ADD, `true` = DELETE; a type whose
neighborhood is empty has probability 0 and cannot be drawn) and `k`
picks the arc uniformly.  The division by `can_add + can_delete` when
both are 0, and a failing table lookup, are modelled by `none`. -/
noncomputable def basic_move.propose (st : DAGState)
    (arcs : List (Nat × Nat) × List (Nat × Nat))
    (scores : Nat → ParentSetDistribution) (mv : Bool) (k : Nat) :
    Option (DAGState × ℝ × ℝ) :=
  if arcs.1.length + arcs.2.length = 0 then none
  else
    let chosen := cond mv arcs.2 arcs.1
    if chosen.length = 0 then none
    else
      let e := chosen.getD (k % chosen.length) (0, 0)
      let new_state :=
        cond mv ((st.copy).removeEdge e.1 e.2) ((st.copy).addEdge e.1 e.2)
      match (scores e.2).lookup (st.parents e.2),
          (scores e.2).lookup (new_state.parents e.2) with
      | some z_old, some z_new =>
          some (new_state,
            (z_new - z_old) + Real.log
              (((arcs.1.length + arcs.2.length : ℕ) : ℝ)
                / ((basic_move.nAdds new_state st.fanIn
                    + basic_move.nDeletes new_state : ℕ) : ℝ)),
            z_new - z_old)
      | _, _ => none

/-- The edge-reversal proposal.  `kEdge` draws the edge `(i, j)`, `kI`
and `kJ` are the oracle draws of the two conditioned sampling steps.
Failing lookups, empty conditioned selections and the empty-arcs draw
are modelled by `none`. -/
noncomputable def rev_move.propose (st : DAGState) (arcs : List (Nat × Nat))
    (scores : Nat → ParentSetDistribution) (kEdge kI kJ : Nat) :
    Option (DAGState × ℝ × ℝ) :=
  if arcs.length = 0 then none
  else
    let e := arcs.getD (kEdge % arcs.length) (0, 0)
    let i := e.1
    let j := e.2
    let dsc_i := st.descFinset i
    let dsc_j := st.descFinset j
    match (scores i).lookup (st.parents i), (scores j).lookup (st.parents j) with
    | some so_i, some so_j =>
      let score_old := so_i + so_j
      match (scores i).log_z (fun ps => decide (Disjoint ps dsc_i)),
          (scores j).log_z
            (fun ps => decide (i ∈ ps) && decide (Disjoint ps dsc_j)) with
      | some z_i, some z_star_j =>
        let st1 := (st.copy).orphan [i, j]
        match (scores i).sample
            (fun ps => decide (j ∈ ps) && decide (Disjoint ps (st1.descFinset i)))
            kI with
        | some (ps_i, z_star_i) =>
          let st2 := st1.addEdges (ps_i.image (fun p => (p, i)))
          match (scores j).sample
              (fun ps => decide (Disjoint ps (st2.descFinset j))) kJ with
          | some (ps_j, z_j) =>
            let st3 := st2.addEdges (ps_j.image (fun p => (p, j)))
            match (scores i).lookup (st3.parents i),
                (scores j).lookup (st3.parents j) with
            | some sn_i, some sn_j =>
                some (st3,
                  (z_star_i + z_j - z_star_j - z_i)
                    + Real.log ((arcs.length : ℝ) / (st3.adj.card : ℝ)),
                  (sn_i + sn_j) - score_old)
            | _, _ => none
          | none => none
        | none => none
      | _, _ => none
    | _, _ => none

/-! ## The top-level proposal distribution -/

inductive MoveKind where
  | basicMove
  | revMove
deriving DecidableEq

def MoveKind.movesOf : MoveKind → DAGState → MovesResult
  | .basicMove => basic_move.moves
  | .revMove => rev_move.moves

/-- Dispatch of `self.moves[m].propose(state, move_arcs[m], ...)`. -/
noncomputable def dispatchPropose (mk : MoveKind) (st : DAGState)
    (ms : MovesResult) (scores : Nat → ParentSetDistribution)
    (mv : Bool) (k kI kJ : Nat) : Option (DAGState × ℝ × ℝ) :=
  match mk, ms with
  | .basicMove, .pair a d => basic_move.propose st (a, d) scores mv k
  | .revMove, .single arcs => rev_move.propose st arcs scores k kI kJ
  | _, _ => none

/-- The proposal distribution: the configured move kinds, the
move-probability weight vector, the fan-in bound and the parent-set
score tables built at initialization.  Only the zero pattern of the
weights and the sign of their total are ever branched on (the
renormalization divides by the total), so the weights are carried as
integers. -/
structure DAGProposal where
  moves : List MoveKind
  move_prob : List ℤ
  fan_in : Nat
  ps_scores : Nat → ParentSetDistribution

/-- The top-level `sample`.  It is modelled state-passing: the first
component of the result is the value of the *input* state after the
call, because the code assigns `state.fan_in_ = self.fan_in` on the
input before enumerating moves.  `mIdx` is the oracle draw of the move
kind (an index with zero renormalized probability cannot be drawn; a
zero probability total makes the normalization produce NaN and the draw
raise, modelled by `none`), and `mv`, `k`, `kI`, `kJ` are passed to the
chosen move's propose. -/
noncomputable def DAGProposal.sample (P : DAGProposal) (state : DAGState)
    (mIdx : Nat) (mv : Bool) (k kI kJ : Nat) :
    DAGState × Option (DAGState × ℝ × ℝ) :=
  if ∃ v ∈ Finset.range state.n, P.fan_in < (state.parents v).card then
    (state, none)
  else
    let state1 := { state with fanIn := P.fan_in }
    let move_arcs := P.moves.map (fun m => m.movesOf state1)
    let has_move := move_arcs.map (fun ms => decide (pyLen ms ≠ 0))
    let w := (P.move_prob.zip has_move).map (fun pb => if pb.2 then pb.1 else 0)
    if w.sum = 0 then (state1, none)
    else if hIdx : mIdx < P.moves.length ∧ 0 < w.getD mIdx 0 then
      let mk := P.moves.get ⟨mIdx, hIdx.1⟩
      match dispatchPropose mk state1 (mk.movesOf state1) P.ps_scores mv k kI kJ with
      | none => (state1, none)
      | some (ns, acc, diff) =>
          (state1, some ({ ns with fanIn := P.fan_in }, acc, diff))
    else (state1, none)


/-! ## Concrete fixtures used by witnesses -/

/-- Two-row score table over variable 0. -/
def psdA : ParentSetDistribution := ⟨0, [(∅, (0 : ℝ)), ({1}, 0)]⟩


/-- Truth of the optional feasibility condition. -/
def condHolds (condition : Option (Nat → Finset Nat → Bool)) (var : Nat)
    (s : Finset Nat) : Prop :=
  match condition with
  | none => True
  | some c => c var s = true


/-- Constant zero scoring function (witness fixture). -/
noncomputable def scoreZero : Nat → Finset Nat → ℝ := fun _ _ => 0


/-- Two-node state with the single edge 0 → 1 and fan-in 1 (witness
fixture). -/
def stA : DAGState := ⟨2, {(0, 1)}, 1⟩


/-- Score tables holding the empty set and both singletons, all with
log-score 0 (witness fixture). -/
noncomputable def scoresA : Nat → ParentSetDistribution :=
  fun v => ⟨v, [(∅, (0 : ℝ)), ({0}, 0), ({1}, 0)]⟩


/-- Score tables whose keys respect the enumeration invariant (no key
contains the variable, keys within range 2); witness fixture. -/
noncomputable def scoresB : Nat → ParentSetDistribution :=
  fun v => if v = 0 then ⟨0, [(∅, (0 : ℝ)), ({1}, 0)]⟩
    else ⟨v, [(∅, 0), ({0}, 0)]⟩


/-- Single isolated node, fan-in 5 (witness fixture). -/
def stOne : DAGState := ⟨1, ∅, 5⟩

/-- Two-node state with edge 0 → 1 whose stamped fan-in is 3 (witness
fixture for the fan-in restamping). -/
def stB : DAGState := ⟨2, {(0, 1)}, 3⟩

/-- Proposal configured with only the add/delete move (witness fixture). -/
noncomputable def propBasic : DAGProposal := ⟨[.basicMove], [1], 5, scoresA⟩

/-- Proposal configured with only the reversal move and fan-in 2
(witness fixture). -/
noncomputable def propRev : DAGProposal := ⟨[.revMove], [1], 2, scoresB⟩

/-! ## Theorems -/

theorem mem_succs {E : Finset (Nat × Nat)} {S : Finset Nat} {v : Nat} :
    v ∈ succs E S ↔ ∃ u ∈ S, (u, v) ∈ E := by
  constructor
  · intro hv
    obtain ⟨e, he, hev⟩ := Finset.mem_image.1 hv
    obtain ⟨heE, heS⟩ := Finset.mem_filter.1 he
    exact ⟨e.1, heS, by rw [← hev]; exact heE⟩
  · rintro ⟨u, huS, huE⟩
    exact Finset.mem_image.2 ⟨(u, v), Finset.mem_filter.2 ⟨huE, huS⟩, rfl⟩

theorem succs_subset_nodesOf (E : Finset (Nat × Nat)) (S : Finset Nat) :
    succs E S ⊆ nodesOf E := by
  intro v hv
  obtain ⟨u, _, huE⟩ := mem_succs.1 hv
  exact Finset.mem_union_right _ (Finset.mem_image.2 ⟨(u, v), huE, rfl⟩)

theorem subset_reachAux (k : Nat) (E : Finset (Nat × Nat)) (S : Finset Nat) :
    S ⊆ reachAux k E S := by
  induction k generalizing S with
  | zero => exact fun x hx => hx
  | succ k ih =>
      exact fun x hx => ih (S ∪ succs E S) (Finset.mem_union_left _ hx)

theorem reachAux_sound {k : Nat} {E : Finset (Nat × Nat)} {S : Finset Nat} {v : Nat}
    (hv : v ∈ reachAux k E S) :
    ∃ u ∈ S, Relation.ReflTransGen (EdgeRel E) u v := by
  induction k generalizing S with
  | zero => exact ⟨v, hv, Relation.ReflTransGen.refl⟩
  | succ k ih =>
      obtain ⟨u, hu, hpath⟩ := ih hv
      rcases Finset.mem_union.1 hu with h | h
      · exact ⟨u, h, hpath⟩
      · obtain ⟨w, hw, hedge⟩ := mem_succs.1 h
        exact ⟨w, hw, Relation.ReflTransGen.head hedge hpath⟩

theorem reachAux_fixed {E : Finset (Nat × Nat)} {S : Finset Nat}
    (h : succs E S ⊆ S) : ∀ k, reachAux k E S = S := by
  intro k
  induction k with
  | zero => rfl
  | succ k ih =>
      show reachAux k E (S ∪ succs E S) = S
      rw [Finset.union_eq_left.mpr h]
      exact ih

theorem reachAux_closed {E : Finset (Nat × Nat)} :
    ∀ (k : Nat) (S : Finset Nat), (nodesOf E \ S).card ≤ k →
      succs E (reachAux k E S) ⊆ reachAux k E S := by
  intro k
  induction k with
  | zero =>
      intro S hcard
      have hsub : nodesOf E ⊆ S := by
        rw [← Finset.sdiff_eq_empty_iff_subset]
        exact Finset.card_eq_zero.1 (Nat.le_zero.1 hcard)
      exact fun v hv => hsub (succs_subset_nodesOf E _ hv)
  | succ k ih =>
      intro S hcard
      by_cases hc : succs E S ⊆ S
      · rw [reachAux_fixed hc]
        exact hc
      · obtain ⟨x, hxs, hxns⟩ := Finset.not_subset.1 hc
        have hstep : reachAux (k + 1) E S = reachAux k E (S ∪ succs E S) := rfl
        rw [hstep]
        apply ih
        have hx1 : x ∈ nodesOf E \ S :=
          Finset.mem_sdiff.2 ⟨succs_subset_nodesOf E S hxs, hxns⟩
        have hx2 : x ∉ nodesOf E \ (S ∪ succs E S) := by
          intro hx
          exact (Finset.mem_sdiff.1 hx).2 (Finset.mem_union_right _ hxs)
        have hssub : nodesOf E \ (S ∪ succs E S) ⊂ nodesOf E \ S := by
          refine Finset.ssubset_iff_of_subset ?_ |>.2 ⟨x, hx1, hx2⟩
          exact Finset.sdiff_subset_sdiff (le_refl _) Finset.subset_union_left
        have := Finset.card_lt_card hssub
        omega

theorem mem_of_reflTransGen {E : Finset (Nat × Nat)} {R : Finset Nat}
    (hclosed : succs E R ⊆ R) {u v : Nat} (hu : u ∈ R)
    (h : Relation.ReflTransGen (EdgeRel E) u v) : v ∈ R := by
  induction h with
  | refl => exact hu
  | tail _ hstep ih => exact hclosed (mem_succs.2 ⟨_, ih, hstep⟩)

theorem nodesOf_subset_range {st : DAGState} (hwf : st.WF) :
    nodesOf st.adj ⊆ Finset.range st.n := by
  intro v hv
  rcases Finset.mem_union.1 hv with h | h
  · obtain ⟨e, he, hev⟩ := Finset.mem_image.1 h
    exact Finset.mem_range.2 (hev ▸ (hwf e he).1)
  · obtain ⟨e, he, hev⟩ := Finset.mem_image.1 h
    exact Finset.mem_range.2 (hev ▸ (hwf e he).2)

/-- Computed descendants are sound: membership really is reachability.
No well-formedness is needed for this direction. -/
theorem descFinset_sound {st : DAGState} {i v : Nat}
    (h : v ∈ st.descFinset i) : Reaches st.adj i v := by
  obtain ⟨u, hu, hpath⟩ := reachAux_sound h
  obtain ⟨w, hw, hedge⟩ := mem_succs.1 hu
  have hwi : w = i := Finset.mem_singleton.1 hw
  exact Relation.TransGen.head'_iff.2 ⟨u, hwi ▸ hedge, hpath⟩

/-- On a well-formed state the computed descendants are complete: the
`n`-fold iteration saturates the reachability closure. -/
theorem reaches_mem_descFinset {st : DAGState} (hwf : st.WF) {i v : Nat}
    (h : Reaches st.adj i v) : v ∈ st.descFinset i := by
  obtain ⟨u, hedge, hpath⟩ := Relation.TransGen.head'_iff.1 h
  have hu : u ∈ succs st.adj {i} :=
    mem_succs.2 ⟨i, Finset.mem_singleton_self i, hedge⟩
  have hcard : (nodesOf st.adj \ succs st.adj {i}).card ≤ st.n := by
    calc (nodesOf st.adj \ succs st.adj {i}).card
        ≤ (nodesOf st.adj).card := Finset.card_le_card (Finset.sdiff_subset)
      _ ≤ (Finset.range st.n).card := Finset.card_le_card (nodesOf_subset_range hwf)
      _ = st.n := Finset.card_range st.n
  exact mem_of_reflTransGen (reachAux_closed st.n _ hcard)
    (subset_reachAux st.n st.adj _ hu) hpath

theorem mem_descFinset {st : DAGState} (hwf : st.WF) {i v : Nat} :
    v ∈ st.descFinset i ↔ Reaches st.adj i v :=
  ⟨descFinset_sound, reaches_mem_descFinset hwf⟩

theorem acyclic_mono {E F : Finset (Nat × Nat)} (hsub : F ⊆ E)
    (h : Acyclic E) : Acyclic F := by
  intro v hv
  exact h v (Relation.TransGen.mono (fun a b hab => hsub hab) hv)

theorem edgeRel_addInto {E : Finset (Nat × Nat)} {P : Finset Nat} {v a b : Nat} :
    EdgeRel (addInto E P v) a b ↔ EdgeRel E a b ∨ (a ∈ P ∧ b = v) := by
  unfold EdgeRel addInto
  simp only [Finset.mem_union, Finset.mem_image, Prod.mk.injEq]
  constructor
  · rintro (h | ⟨p, hp, rfl, rfl⟩)
    · exact Or.inl h
    · exact Or.inr ⟨hp, rfl⟩
  · rintro (h | ⟨hP, rfl⟩)
    · exact Or.inl h
    · exact Or.inr ⟨a, hP, rfl, rfl⟩

theorem rtg_addInto_from_target {E : Finset (Nat × Nat)} {P : Finset Nat} {v x : Nat}
    (h : Relation.ReflTransGen (EdgeRel (addInto E P v)) v x) :
    Relation.ReflTransGen (EdgeRel E) v x := by
  induction h with
  | refl => exact Relation.ReflTransGen.refl
  | tail _ hstep ih =>
      rcases edgeRel_addInto.1 hstep with he | ⟨_, rfl⟩
      · exact ih.tail he
      · exact Relation.ReflTransGen.refl

theorem transGen_addInto_cases {E : Finset (Nat × Nat)} {P : Finset Nat} {v a b : Nat}
    (h : Relation.TransGen (EdgeRel (addInto E P v)) a b) :
    Relation.TransGen (EdgeRel E) a b ∨
      ∃ p ∈ P, Relation.ReflTransGen (EdgeRel (addInto E P v)) a p ∧
        Relation.ReflTransGen (EdgeRel (addInto E P v)) v b := by
  induction h with
  | single hstep =>
      rcases edgeRel_addInto.1 hstep with he | ⟨hP, rfl⟩
      · exact Or.inl (Relation.TransGen.single he)
      · exact Or.inr ⟨_, hP, Relation.ReflTransGen.refl, Relation.ReflTransGen.refl⟩
  | tail hprev hstep ih =>
      rcases ih with htg | ⟨p, hp, h1, h2⟩
      · rcases edgeRel_addInto.1 hstep with he | ⟨hP, rfl⟩
        · exact Or.inl (htg.tail he)
        · exact Or.inr ⟨_, hP, htg.to_reflTransGen.mono
            (fun x y hxy => edgeRel_addInto.2 (Or.inl hxy)), Relation.ReflTransGen.refl⟩
      · exact Or.inr ⟨p, hp, h1, h2.tail hstep⟩

/-- The acyclicity-by-construction argument: pointing fresh parent edges
into `v` cannot create a cycle when no new parent is reachable from `v`
(includes `v` itself, via the reflexive case). -/
theorem acyclic_addInto {E : Finset (Nat × Nat)} {P : Finset Nat} {v : Nat}
    (hE : Acyclic E)
    (hP : ∀ p ∈ P, ¬ Relation.ReflTransGen (EdgeRel E) v p) :
    Acyclic (addInto E P v) := by
  intro w hw
  rcases transGen_addInto_cases hw with htg | ⟨p, hp, h1, h2⟩
  · exact hE w htg
  · exact hP p hp (rtg_addInto_from_target (h2.trans h1))

/-- Topological-rank criterion, used to discharge acyclicity at concrete
witness states: if every edge strictly increases, there is no cycle. -/
theorem acyclic_of_increasing {E : Finset (Nat × Nat)}
    (h : ∀ e ∈ E, e.1 < e.2) : Acyclic E := by
  have key : ∀ a b : Nat, Relation.TransGen (EdgeRel E) a b → a < b := by
    intro a b htg
    induction htg with
    | single hstep => exact h _ hstep
    | tail _ hstep ih => exact ih.trans (h _ hstep)
  exact fun v hv => lt_irrefl v (key v v hv)

theorem mem_parents {st : DAGState} {u v : Nat} :
    u ∈ st.parents v ↔ (u, v) ∈ st.adj := by
  unfold DAGState.parents
  constructor
  · intro h
    obtain ⟨e, he, heu⟩ := Finset.mem_image.1 h
    obtain ⟨headj, hev⟩ := Finset.mem_filter.1 he
    rw [← heu, ← hev]
    exact headj
  · intro h
    exact Finset.mem_image.2 ⟨(u, v), Finset.mem_filter.2 ⟨h, rfl⟩, rfl⟩

theorem parents_card (st : DAGState) (v : Nat) :
    (st.parents v).card = st.indeg v := by
  unfold DAGState.parents DAGState.indeg
  apply Finset.card_image_of_injOn
  intro e he e' he' hfst
  have hev := (Finset.mem_filter.1 he).2
  have hev' := (Finset.mem_filter.1 he').2
  exact Prod.ext hfst (hev.trans hev'.symm)

/-! ### ParentSetDistribution: selection and normalizer lemmas -/

theorem mem_filtered {d : ParentSetDistribution} {cond : Finset Nat → Bool}
    {kv : Finset Nat × ℝ} :
    kv ∈ d.filtered cond ↔ kv ∈ d.table ∧ cond kv.1 = true := by
  unfold ParentSetDistribution.filtered
  rw [List.mem_filter]

theorem lookup_eq_some {d : ParentSetDistribution} {ps : Finset Nat} {r : ℝ}
    (h : d.lookup ps = some r) : (ps, r) ∈ d.table := by
  unfold ParentSetDistribution.lookup at h
  obtain ⟨kv, hfind, hsnd⟩ := Option.map_eq_some'.1 h
  have hmem := List.mem_of_find?_eq_some hfind
  have hkey : kv.1 = ps := by
    have := List.find?_some hfind
    simpa using this
  have : kv = (ps, r) := Prod.ext hkey hsnd
  rw [← this]
  exact hmem

theorem sample_key {d : ParentSetDistribution} {cond : Finset Nat → Bool}
    {k : Nat} {ps : Finset Nat} {z : ℝ}
    (h : d.sample cond k = some (ps, z)) :
    (∃ r : ℝ, (ps, r) ∈ d.table) ∧ cond ps = true := by
  unfold ParentSetDistribution.sample at h
  rcases hf : d.filtered cond with _ | ⟨kv1, tl⟩
  · rw [hf] at h
    exact absurd h (by simp)
  · rcases tl with _ | ⟨kv2, rest⟩
    · rw [hf] at h
      have hkv : kv1 = (ps, z) := Option.some.inj h
      subst hkv
      have hmem : (ps, z) ∈ d.filtered cond := by
        rw [hf]
        exact List.mem_singleton.2 rfl
      obtain ⟨ht, hc⟩ := mem_filtered.1 hmem
      exact ⟨⟨z, ht⟩, hc⟩
    · rw [hf] at h
      have hlen : k % (kv1 :: kv2 :: rest).length < (kv1 :: kv2 :: rest).length :=
        Nat.mod_lt _ (by simp)
      have hrow : (kv1 :: kv2 :: rest).getD
          (k % (kv1 :: kv2 :: rest).length) kv1 ∈ kv1 :: kv2 :: rest := by
        rw [List.getD_eq_getElem _ kv1 hlen]
        exact List.getElem_mem hlen
      have hfst : ((kv1 :: kv2 :: rest).getD
          (k % (kv1 :: kv2 :: rest).length) kv1).1 = ps :=
        congrArg Prod.fst (Option.some.inj h)
      have hmem : (kv1 :: kv2 :: rest).getD
          (k % (kv1 :: kv2 :: rest).length) kv1 ∈ d.filtered cond := by
        rw [hf]
        exact hrow
      obtain ⟨ht, hc⟩ := mem_filtered.1 hmem
      refine ⟨⟨((kv1 :: kv2 :: rest).getD
          (k % (kv1 :: kv2 :: rest).length) kv1).2, ?_⟩, ?_⟩
      · rw [← hfst]
        exact ht
      · rw [← hfst]
        exact hc

theorem logSumExp_singleton (x : ℝ) : logSumExp [x] = x := by
  simp [logSumExp, Real.log_exp]

theorem sum_map_exp_pos (l : List ℝ) (h : l ≠ []) :
    0 < (l.map Real.exp).sum := by
  rcases l with _ | ⟨x, t⟩
  · exact absurd rfl h
  · rw [List.map_cons, List.sum_cons]
    have ht : 0 ≤ (t.map Real.exp).sum :=
      List.sum_nonneg (by
        intro a ha
        obtain ⟨b, _, hb⟩ := List.mem_map.1 ha
        exact hb ▸ (Real.exp_pos b).le)
    exact add_pos_of_pos_of_nonneg (Real.exp_pos x) ht

theorem sum_map_exp_shift (l : List ℝ) (c : ℝ) :
    (l.map (fun s => Real.exp (s - c))).sum
      = (l.map Real.exp).sum * Real.exp (-c) := by
  induction l with
  | nil => simp
  | cons x t ih =>
      simp only [List.map_cons, List.sum_cons, ih, add_mul]
      congr 1
      rw [← Real.exp_add, sub_eq_add_neg]

theorem logsumexp_shift (l : List ℝ) (h : l ≠ []) (c : ℝ) :
    Real.log ((l.map (fun s => Real.exp (s - c))).sum) + c = logSumExp l := by
  rw [sum_map_exp_shift l c,
    Real.log_mul (sum_map_exp_pos l h).ne' (Real.exp_ne_zero _), Real.log_exp]
  unfold logSumExp
  ring

theorem log_z_eq_logSumExp (d : ParentSetDistribution) (cond : Finset Nat → Bool)
    (h : d.filtered cond ≠ []) :
    d.log_z cond = some (logSumExp ((d.filtered cond).map Prod.snd)) := by
  unfold ParentSetDistribution.log_z
  rcases hf : d.filtered cond with _ | ⟨kv1, tl⟩
  · exact absurd hf h
  · rcases tl with _ | ⟨kv2, rest⟩
    · rw [List.map_cons, List.map_nil, logSumExp_singleton]
    · show some (Real.log ((((kv1 :: kv2 :: rest).map Prod.snd).map
            (fun s => Real.exp (s - pyMax ((kv1 :: kv2 :: rest).map Prod.snd)))).sum)
          + pyMax ((kv1 :: kv2 :: rest).map Prod.snd))
        = some (logSumExp ((kv1 :: kv2 :: rest).map Prod.snd))
      rw [logsumexp_shift _ (by simp)]

theorem sample_eq_logSumExp (d : ParentSetDistribution) (cond : Finset Nat → Bool)
    (k : Nat) (h : d.filtered cond ≠ []) :
    ∃ kv ∈ d.filtered cond,
      d.sample cond k = some (kv.1, logSumExp ((d.filtered cond).map Prod.snd)) := by
  unfold ParentSetDistribution.sample
  rcases hf : d.filtered cond with _ | ⟨kv1, tl⟩
  · exact absurd hf h
  · rcases tl with _ | ⟨kv2, rest⟩
    · refine ⟨kv1, List.mem_singleton.2 rfl, ?_⟩
      rw [List.map_cons, List.map_nil, logSumExp_singleton]
    · have hlen : k % (kv1 :: kv2 :: rest).length < (kv1 :: kv2 :: rest).length :=
        Nat.mod_lt _ (by simp)
      refine ⟨(kv1 :: kv2 :: rest).getD (k % (kv1 :: kv2 :: rest).length) kv1, ?_, ?_⟩
      · rw [List.getD_eq_getElem _ kv1 hlen]
        exact List.getElem_mem hlen
      · show some (((kv1 :: kv2 :: rest).getD (k % (kv1 :: kv2 :: rest).length) kv1).1,
            Real.log ((((kv1 :: kv2 :: rest).map Prod.snd).map
              (fun s => Real.exp (s - pyMax ((kv1 :: kv2 :: rest).map Prod.snd)))).sum)
            + pyMax ((kv1 :: kv2 :: rest).map Prod.snd))
          = some (((kv1 :: kv2 :: rest).getD (k % (kv1 :: kv2 :: rest).length) kv1).1,
            logSumExp ((kv1 :: kv2 :: rest).map Prod.snd))
        rw [logsumexp_shift _ (by simp)]

theorem filtered_singleton_exact (d : ParentSetDistribution)
    (cond : Finset Nat → Bool) (kv : Finset Nat × ℝ)
    (h : d.filtered cond = [kv]) :
    d.log_z cond = some kv.2 ∧ ∀ k, d.sample cond k = some kv := by
  constructor
  · unfold ParentSetDistribution.log_z
    rw [h]
  · intro k
    unfold ParentSetDistribution.sample
    rw [h]

/-! ### Enumeration lemmas -/

theorem mem_power_set {n F : Nat} {s : Finset Nat} :
    s ∈ power_set n F ↔ s ⊆ Finset.range n ∧ s.card ≤ F := by
  unfold power_set
  rw [List.mem_filter]
  simp only [decide_eq_true_eq]
  constructor
  · rintro ⟨hmem, hcard⟩
    obtain ⟨l, hl, rfl⟩ := List.mem_map.1 hmem
    refine ⟨?_, hcard⟩
    intro x hx
    have hxl : x ∈ l := List.mem_toFinset.1 hx
    have : x ∈ List.range n := (List.mem_sublists.1 hl).subset hxl
    exact Finset.mem_range.2 (List.mem_range.1 this)
  · rintro ⟨hsub, hcard⟩
    refine ⟨List.mem_map.2 ⟨(List.range n).filter (fun x => decide (x ∈ s)), ?_, ?_⟩, hcard⟩
    · exact List.mem_sublists.2 (List.filter_sublist _)
    · ext x
      rw [List.mem_toFinset, List.mem_filter]
      simp only [decide_eq_true_eq, List.mem_range]
      constructor
      · exact fun h => h.2
      · exact fun h => ⟨Finset.mem_range.1 (hsub h), h⟩

theorem mem_varPsets {n F : Nat} {condition : Option (Nat → Finset Nat → Bool)}
    {var : Nat} {s : Finset Nat} :
    s ∈ varPsets n F condition var ↔
      s ⊆ Finset.range n ∧ s.card ≤ F ∧ var ∉ s ∧ condHolds condition var s := by
  unfold varPsets condHolds
  rcases condition with _ | c
  · rw [List.mem_filter]
    simp only [decide_eq_true_eq, mem_power_set]
    tauto
  · rw [List.mem_filter]
    simp only [Bool.and_eq_true, decide_eq_true_eq, mem_power_set]
    tauto

theorem mem_zip_map_self {α β : Type} {l : List α} {f : α → β} {a : α} {b : β} :
    (a, b) ∈ l.zip (l.map f) ↔ a ∈ l ∧ b = f a := by
  induction l with
  | nil => simp
  | cons x t ih =>
      rw [List.map_cons, List.zip_cons_cons, List.mem_cons, ih, List.mem_cons]
      constructor
      · rintro (hx | ⟨ht, rfl⟩)
        · obtain ⟨rfl, rfl⟩ := Prod.mk.injEq .. ▸ hx
          exact ⟨Or.inl rfl, rfl⟩
        · exact ⟨Or.inr ht, rfl⟩
      · rintro ⟨(rfl | ht), rfl⟩
        · exact Or.inl rfl
        · exact Or.inr ⟨ht, rfl⟩

theorem optionMapList_none_of {α β : Type} {f : α → Option β} {l : List α}
    {a : α} (ha : a ∈ l) (hfa : f a = none) : optionMapList f l = none := by
  induction l with
  | nil => exact absurd ha (List.not_mem_nil a)
  | cons x t ih =>
      rcases List.mem_cons.1 ha with rfl | hat
      · cases hrec : optionMapList f t <;> simp [optionMapList, hfa, hrec]
      · cases hfx : f x <;> simp [optionMapList, hfx, ih hat]

theorem optionMapList_some {α β : Type} {f : α → Option β} {l : List α}
    {bs : List β} (h : optionMapList f l = some bs) :
    bs.length = l.length ∧
      ∀ i (hi : i < l.length) (hi' : i < bs.length),
        f (l.get ⟨i, hi⟩) = some (bs.get ⟨i, hi'⟩) := by
  induction l generalizing bs with
  | nil =>
      have : bs = [] := by simpa [optionMapList] using h.symm
      subst this
      exact ⟨rfl, fun i hi => absurd hi (Nat.not_lt_zero i)⟩
  | cons x t ih =>
      unfold optionMapList at h
      rcases hfx : f x with _ | b
      · rw [hfx] at h
        cases hrec : optionMapList f t <;> rw [hrec] at h <;> exact absurd h (by simp)
      · rw [hfx] at h
        rcases hrec : optionMapList f t with _ | tbs
        · rw [hrec] at h
          exact absurd h (by simp)
        · rw [hrec] at h
          have hbs : bs = b :: tbs := (Option.some.inj h).symm
          subst hbs
          obtain ⟨hlen, hget⟩ := ih hrec
          refine ⟨by simp [hlen], ?_⟩
          intro i hi hi'
          cases i with
          | zero => exact hfx
          | succ m => exact hget m (Nat.lt_of_succ_lt_succ hi) (Nat.lt_of_succ_lt_succ hi')

/-! ### Claims C6 and C7: conditioned queries of a distribution -/

/-- C6: for every distribution and condition whose conditioned selection
is nonempty, `log_z` equals the log-sum-exp of the raw scores of the
selection (the max-shifted computation cancels), the log normalizer
reported by `sample` is the same value, and a singleton selection is
returned with probability 1 (every draw) with its raw score exactly. -/
theorem C6_conditioned_log_partition (d : ParentSetDistribution)
    (cond : Finset Nat → Bool) (h : d.filtered cond ≠ []) :
    d.log_z cond = some (logSumExp ((d.filtered cond).map Prod.snd))
    ∧ (∀ k, ∃ kv ∈ d.filtered cond,
        d.sample cond k = some (kv.1, logSumExp ((d.filtered cond).map Prod.snd)))
    ∧ (∀ kv, d.filtered cond = [kv] →
        d.log_z cond = some kv.2 ∧ ∀ k, d.sample cond k = some kv) :=
  ⟨log_z_eq_logSumExp d cond h,
    fun k => sample_eq_logSumExp d cond k h,
    fun kv hkv => filtered_singleton_exact d cond kv hkv⟩

theorem C6_conditioned_log_partition_witness :
    psdA.log_z (fun _ => true)
        = some (logSumExp ((psdA.filtered (fun _ => true)).map Prod.snd))
    ∧ (∀ k, ∃ kv ∈ psdA.filtered (fun _ => true),
        psdA.sample (fun _ => true) k
          = some (kv.1, logSumExp ((psdA.filtered (fun _ => true)).map Prod.snd)))
    ∧ (∀ kv, psdA.filtered (fun _ => true) = [kv] →
        psdA.log_z (fun _ => true) = some kv.2 ∧
          ∀ k, psdA.sample (fun _ => true) k = some kv) :=
  C6_conditioned_log_partition psdA (fun _ => true)
    (by simp [psdA, ParentSetDistribution.filtered])

/-- C7: a condition satisfied by no table key makes both `sample` and
`log_z` fail (the raised exception is modelled by `none`). -/
theorem C7_empty_selection_fails (d : ParentSetDistribution)
    (cond : Finset Nat → Bool) (h : d.filtered cond = []) :
    d.log_z cond = none ∧ ∀ k, d.sample cond k = none := by
  constructor
  · unfold ParentSetDistribution.log_z
    rw [h]
  · intro k
    unfold ParentSetDistribution.sample
    rw [h]

theorem C7_empty_selection_fails_witness :
    psdA.log_z (fun _ => false) = none ∧
      ∀ k, psdA.sample (fun _ => false) k = none :=
  C7_empty_selection_fails psdA (fun _ => false)
    (by simp [psdA, ParentSetDistribution.filtered])

/-! ### Claims C8 and C10: enumeration -/

/-- C8: a successful enumeration builds exactly one distribution per
variable `v` of `0..n`, tagged with `v`, whose table pairs are exactly
the subsets of the other variables of cardinality at most the fan-in
(passing the optional feasibility condition), scored by `score_fn`.  In
particular no key contains `v` and every key has cardinality at most
the fan-in. -/
theorem C8_enumeration_builds_tables (n F : Nat)
    (score_fn : Nat → Finset Nat → ℝ)
    (condition : Option (Nat → Finset Nat → Bool))
    (dists : List ParentSetDistribution)
    (h : get_parent_set_distributions n F score_fn condition = some dists) :
    dists.length = n ∧
      ∀ (v : Nat) (hv : v < dists.length),
        (dists.get ⟨v, hv⟩).var = v ∧
        ∀ (s : Finset Nat) (r : ℝ),
          (s, r) ∈ (dists.get ⟨v, hv⟩).table ↔
            s ⊆ Finset.range n ∧ s.card ≤ F ∧ v ∉ s ∧
              condHolds condition v s ∧ r = score_fn v s := by
  unfold get_parent_set_distributions at h
  obtain ⟨hlen, hget⟩ := optionMapList_some h
  have hlen' : dists.length = n := by simpa using hlen
  refine ⟨hlen', ?_⟩
  intro v hv
  have hvn : v < (List.range n).length := by
    rw [List.length_range]
    exact hlen' ▸ hv
  have hfv := hget v hvn hv
  have hvv : (List.range n).get ⟨v, hvn⟩ = v := by
    simp [List.get_eq_getElem, List.getElem_range]
  rw [hvv] at hfv
  have hfv' : ParentSetDistribution.init v (varPsets n F condition v)
      ((varPsets n F condition v).map (score_fn v)) = some (dists.get ⟨v, hv⟩) :=
    hfv
  rcases hps : varPsets n F condition v with _ | ⟨x, t⟩
  · rw [hps] at hfv'
    exact absurd hfv' (by simp [ParentSetDistribution.init])
  · rw [hps] at hfv'
    have hd : dists.get ⟨v, hv⟩
        = ⟨v, (x :: t).zip ((x :: t).map (score_fn v))⟩ := by
      unfold ParentSetDistribution.init at hfv'
      exact (Option.some.inj hfv').symm
    rw [hd]
    refine ⟨rfl, ?_⟩
    intro s r
    show (s, r) ∈ (x :: t).zip ((x :: t).map (score_fn v)) ↔ _
    rw [mem_zip_map_self, ← hps, mem_varPsets]
    tauto

theorem C8_enumeration_builds_tables_witness :
    ∃ dists, get_parent_set_distributions 2 1 scoreZero none = some dists ∧
      (dists.length = 2 ∧
        ∀ (v : Nat) (hv : v < dists.length),
          (dists.get ⟨v, hv⟩).var = v ∧
          ∀ (s : Finset Nat) (r : ℝ),
            (s, r) ∈ (dists.get ⟨v, hv⟩).table ↔
              s ⊆ Finset.range 2 ∧ s.card ≤ 1 ∧ v ∉ s ∧
                condHolds none v s ∧ r = scoreZero v s) :=
  ⟨_, rfl, C8_enumeration_builds_tables 2 1 scoreZero none _ rfl⟩

/-- C10: the distribution constructor rejects an empty key list (it
inspects the first element unconditionally), and therefore the
enumeration fails outright whenever the feasibility condition filters
out every candidate subset of some variable. -/
theorem C10_empty_candidates_fail (var n F : Nat) (probs : List ℝ)
    (score_fn : Nat → Finset Nat → ℝ) (c : Nat → Finset Nat → Bool)
    (hvar : var < n)
    (hall : varPsets n F (some c) var = []) :
    ParentSetDistribution.init var [] probs = none ∧
    get_parent_set_distributions n F score_fn (some c) = none := by
  constructor
  · rfl
  · unfold get_parent_set_distributions
    apply optionMapList_none_of (List.mem_range.2 hvar)
    show ParentSetDistribution.init var (varPsets n F (some c) var)
        ((varPsets n F (some c) var).map (score_fn var)) = none
    rw [hall]
    rfl

theorem C10_empty_candidates_fail_witness :
    ParentSetDistribution.init 0 [] [] = none ∧
    get_parent_set_distributions 1 0 scoreZero (some (fun _ _ => false)) = none :=
  C10_empty_candidates_fail 0 1 0 [] scoreZero (fun _ _ => false)
    (by decide) (by decide)

/-! ### Claim C3: the add/delete neighborhood -/

theorem mem_allPairs {n : Nat} {e : Nat × Nat} :
    e ∈ allPairs n ↔ e.1 < n ∧ e.2 < n := by
  unfold allPairs
  rw [List.mem_flatMap]
  constructor
  · rintro ⟨u, hu, hmem⟩
    obtain ⟨v, hv, rfl⟩ := List.mem_map.1 hmem
    exact ⟨List.mem_range.1 hu, List.mem_range.1 hv⟩
  · rintro ⟨h1, h2⟩
    exact ⟨e.1, List.mem_range.2 h1, List.mem_map.2 ⟨e.2, List.mem_range.2 h2, rfl⟩⟩

theorem mem_edgeList {st : DAGState} (hwf : st.WF) {e : Nat × Nat} :
    e ∈ st.edgeList ↔ e ∈ st.adj := by
  unfold DAGState.edgeList
  rw [List.mem_filter]
  simp only [decide_eq_true_eq]
  exact ⟨fun h => h.2, fun h => ⟨mem_allPairs.2 (hwf e h), h⟩⟩

theorem allPairs_nodup (n : Nat) : (allPairs n).Nodup := by
  unfold allPairs
  rw [List.nodup_flatMap]
  constructor
  · intro u _
    exact (List.nodup_range n).map (fun a b hab => (Prod.mk.injEq .. ▸ hab).2)
  · refine List.Pairwise.imp ?_ (List.nodup_range n)
    intro u₁ u₂ hne e h₁ h₂
    obtain ⟨v₁, _, rfl⟩ := List.mem_map.1 h₁
    obtain ⟨v₂, _, heq⟩ := List.mem_map.1 h₂
    exact hne (Prod.mk.injEq .. ▸ heq).1.symm

theorem edgeList_nodup (st : DAGState) : st.edgeList.Nodup :=
  (allPairs_nodup st.n).filter _

theorem edgeList_toFinset {st : DAGState} (hwf : st.WF) :
    st.edgeList.toFinset = st.adj := by
  ext e
  rw [List.mem_toFinset, mem_edgeList hwf]

theorem edgeList_length {st : DAGState} (hwf : st.WF) :
    st.edgeList.length = st.adj.card := by
  rw [← edgeList_toFinset hwf, List.toFinset_card_of_nodup (edgeList_nodup st)]

theorem addMatrixEntry_ne_zero {st : DAGState} (hacyc : Acyclic st.adj)
    (u v : Nat) :
    addMatrixEntry st u v ≠ 0 ↔
      u ≠ v ∧ (u, v) ∉ st.adj ∧ u ∉ st.descFinset v := by
  unfold addMatrixEntry
  by_cases h1 : u = v
  · subst h1
    have hadj : (u, u) ∉ st.adj := fun hmem =>
      hacyc u (Relation.TransGen.single hmem)
    have hdesc : u ∉ st.descFinset u := fun hmem =>
      hacyc u (descFinset_sound hmem)
    simp [hadj, hdesc]
  · by_cases h2 : (u, v) ∈ st.adj
    · have hdesc : u ∉ st.descFinset v := fun hmem =>
        hacyc v ((descFinset_sound hmem).tail h2)
      simp [h1, h2, hdesc]
    · by_cases h3 : u ∈ st.descFinset v
      · simp [h1, h2, h3]
      · simp [h1, h2, h3]

/-- C3: on a well-formed acyclic state the enumerated addable edges are
exactly the ordered pairs `(u, v)` of distinct nodes such that `(u, v)`
is not an edge, `v` is not an ancestor of `u` (no cycle is created) and
`v` has strictly fewer parents than the fan-in; the deletable edges are
exactly the current edges. -/
theorem C3_addable_deletable (st : DAGState) (hwf : st.WF)
    (hacyc : Acyclic st.adj) (u v : Nat) :
    ((u, v) ∈ basic_move.addList st ↔
      u < st.n ∧ v < st.n ∧ u ≠ v ∧ (u, v) ∉ st.adj ∧
        ¬ Reaches st.adj v u ∧ (st.parents v).card < st.fanIn)
    ∧ ((u, v) ∈ st.edgeList ↔ (u, v) ∈ st.adj) := by
  constructor
  · have hdesc : u ∈ st.descFinset v ↔ Reaches st.adj v u := mem_descFinset hwf
    have hcard : (st.parents v).card = st.indeg v := parents_card st v
    unfold basic_move.addList addListWith
    rw [List.mem_filter]
    simp only [Bool.and_eq_true, decide_eq_true_eq]
    rw [mem_allPairs, addMatrixEntry_ne_zero hacyc]
    constructor
    · rintro ⟨⟨hu, hv⟩, hin, hne, hadj, hd⟩
      exact ⟨hu, hv, hne, hadj, fun hr => hd (hdesc.2 hr),
        by rw [hcard]; exact hin⟩
    · rintro ⟨hu, hv, hne, hadj, hr, hin⟩
      exact ⟨⟨hu, hv⟩, by rw [← hcard]; exact hin,
        hne, hadj, fun hd => hr (hdesc.1 hd)⟩
  · exact mem_edgeList hwf

theorem C3_addable_deletable_witness :
    (((1, 0) ∈ basic_move.addList stA ↔
      1 < stA.n ∧ 0 < stA.n ∧ 1 ≠ 0 ∧ (1, 0) ∉ stA.adj ∧
        ¬ Reaches stA.adj 0 1 ∧ (stA.parents 0).card < stA.fanIn)
    ∧ ((1, 0) ∈ stA.edgeList ↔ (1, 0) ∈ stA.adj)) :=
  C3_addable_deletable stA (by decide)
    (acyclic_of_increasing (by decide)) 1 0

/-! ### Claim C2: the add/delete proposal -/

/-- C2: a successful add/delete proposal on the enumerated neighborhood
of an acyclic state returns a copy differing from the input by exactly
the one sampled edge (inserted when adding, erased when deleting), a
score delta equal to the table-lookup difference of the target node's
old and new parent sets, and an acceptance ratio equal to the score
delta plus the log-ratio of the forward neighborhood size over the
freshly re-enumerated neighborhood size of the new state under the same
fan-in.  The input state is read but never rebuilt: node count and
fan-in carry over to the copy. -/
theorem C2_add_delete_propose (st : DAGState) (hwf : st.WF)
    (hacyc : Acyclic st.adj) (scores : Nat → ParentSetDistribution)
    (mv : Bool) (k : Nat) (s' : DAGState) (acc diff : ℝ)
    (h : basic_move.propose st (basic_move.addList st, st.edgeList) scores mv k
        = some (s', acc, diff)) :
    ∃ (e : Nat × Nat) (z_old z_new : ℝ),
      ((mv = false ∧ e ∈ basic_move.addList st ∧ e ∉ st.adj ∧
          s'.adj = insert e st.adj) ∨
        (mv = true ∧ e ∈ st.edgeList ∧ e ∈ st.adj ∧
          s'.adj = st.adj.erase e)) ∧
      (scores e.2).lookup (st.parents e.2) = some z_old ∧
      (scores e.2).lookup (s'.parents e.2) = some z_new ∧
      diff = z_new - z_old ∧
      acc = diff + Real.log
          ((((basic_move.addList st).length + st.edgeList.length : ℕ) : ℝ)
            / ((basic_move.nAdds s' st.fanIn + basic_move.nDeletes s' : ℕ) : ℝ)) ∧
      s'.n = st.n ∧ s'.fanIn = st.fanIn := by
  unfold basic_move.propose at h
  by_cases h0 : (basic_move.addList st, st.edgeList).1.length
      + (basic_move.addList st, st.edgeList).2.length = 0
  · rw [if_pos h0] at h
    exact absurd h (by simp)
  · rw [if_neg h0] at h
    cases mv with
    | true =>
        dsimp only [cond] at h
        by_cases h1 : st.edgeList.length = 0
        · rw [if_pos h1] at h
          exact absurd h (by simp)
        · rw [if_neg h1] at h
          have hlen : k % st.edgeList.length < st.edgeList.length :=
            Nat.mod_lt _ (Nat.pos_of_ne_zero h1)
          set e := st.edgeList.getD (k % st.edgeList.length) (0, 0) with hedef
          have hmem : e ∈ st.edgeList := by
            rw [hedef, List.getD_eq_getElem _ _ hlen]
            exact List.getElem_mem hlen
          rcases hzo : (scores e.2).lookup (st.parents e.2) with _ | z_old
          · rw [hzo] at h
            rcases hzn : (scores e.2).lookup
                (((st.copy).removeEdge e.1 e.2).parents e.2) with _ | z_new
            · rw [hzn] at h
              exact absurd h (by simp)
            · rw [hzn] at h
              exact absurd h (by simp)
          · rw [hzo] at h
            rcases hzn : (scores e.2).lookup
                (((st.copy).removeEdge e.1 e.2).parents e.2) with _ | z_new
            · rw [hzn] at h
              exact absurd h (by simp)
            · rw [hzn] at h
              have h' := Option.some.inj h
              have hns : (st.copy).removeEdge e.1 e.2 = s' := congrArg Prod.fst h'
              have hA := congrArg (fun t : DAGState × ℝ × ℝ => t.2.1) h'
              have hD := congrArg (fun t : DAGState × ℝ × ℝ => t.2.2) h'
              dsimp only at hA hD
              refine ⟨e, z_old, z_new,
                Or.inr ⟨rfl, hmem, (mem_edgeList hwf).1 hmem, ?_⟩,
                hzo, ?_, hD.symm, ?_, ?_, ?_⟩
              · rw [← hns]
                rfl
              · rw [← hns]
                exact hzn
              · rw [← hns, ← hD]
                exact hA.symm
              · rw [← hns]
                rfl
              · rw [← hns]
                rfl
    | false =>
        dsimp only [cond] at h
        by_cases h1 : (basic_move.addList st).length = 0
        · rw [if_pos h1] at h
          exact absurd h (by simp)
        · rw [if_neg h1] at h
          have hlen : k % (basic_move.addList st).length
              < (basic_move.addList st).length :=
            Nat.mod_lt _ (Nat.pos_of_ne_zero h1)
          set e := (basic_move.addList st).getD
            (k % (basic_move.addList st).length) (0, 0) with hedef
          have hmem : e ∈ basic_move.addList st := by
            rw [hedef, List.getD_eq_getElem _ _ hlen]
            exact List.getElem_mem hlen
          have hnadj : e ∉ st.adj := by
            have hfilt := (List.mem_filter.1 (by
              rw [basic_move.addList, addListWith] at hmem
              exact hmem)).2
            rw [Bool.and_eq_true, decide_eq_true_eq, decide_eq_true_eq] at hfilt
            exact ((addMatrixEntry_ne_zero hacyc e.1 e.2).1 hfilt.2).2.1
          rcases hzo : (scores e.2).lookup (st.parents e.2) with _ | z_old
          · rw [hzo] at h
            rcases hzn : (scores e.2).lookup
                (((st.copy).addEdge e.1 e.2).parents e.2) with _ | z_new
            · rw [hzn] at h
              exact absurd h (by simp)
            · rw [hzn] at h
              exact absurd h (by simp)
          · rw [hzo] at h
            rcases hzn : (scores e.2).lookup
                (((st.copy).addEdge e.1 e.2).parents e.2) with _ | z_new
            · rw [hzn] at h
              exact absurd h (by simp)
            · rw [hzn] at h
              have h' := Option.some.inj h
              have hns : (st.copy).addEdge e.1 e.2 = s' := congrArg Prod.fst h'
              have hA := congrArg (fun t : DAGState × ℝ × ℝ => t.2.1) h'
              have hD := congrArg (fun t : DAGState × ℝ × ℝ => t.2.2) h'
              dsimp only at hA hD
              refine ⟨e, z_old, z_new,
                Or.inl ⟨rfl, hmem, hnadj, ?_⟩,
                hzo, ?_, hD.symm, ?_, ?_, ?_⟩
              · rw [← hns]
                rfl
              · rw [← hns]
                exact hzn
              · rw [← hns, ← hD]
                exact hA.symm
              · rw [← hns]
                rfl
              · rw [← hns]
                rfl

theorem C2_add_delete_propose_witness :
    ∃ (s' : DAGState) (acc diff : ℝ),
      basic_move.propose stA (basic_move.addList stA, stA.edgeList) scoresA true 0
          = some (s', acc, diff) ∧
      (∃ (e : Nat × Nat) (z_old z_new : ℝ),
        ((true = false ∧ e ∈ basic_move.addList stA ∧ e ∉ stA.adj ∧
            s'.adj = insert e stA.adj) ∨
          (true = true ∧ e ∈ stA.edgeList ∧ e ∈ stA.adj ∧
            s'.adj = stA.adj.erase e)) ∧
        (scoresA e.2).lookup (stA.parents e.2) = some z_old ∧
        (scoresA e.2).lookup (s'.parents e.2) = some z_new ∧
        diff = z_new - z_old ∧
        acc = diff + Real.log
            ((((basic_move.addList stA).length + stA.edgeList.length : ℕ) : ℝ)
              / ((basic_move.nAdds s' stA.fanIn
                  + basic_move.nDeletes s' : ℕ) : ℝ)) ∧
        s'.n = stA.n ∧ s'.fanIn = stA.fanIn) :=
  ⟨_, _, _, rfl, C2_add_delete_propose stA (by decide)
    (acyclic_of_increasing (by decide)) scoresA true 0 _ _ _ rfl⟩

/-! ### The edge-reversal proposal: inversion -/

/-- Full characterization of a successful `rev_move.propose` call: the
chosen edge, every conditioned query it performs, the construction of
the new state (orphan both endpoints, then attach the resampled parent
sets), and the returned acceptance ratio and score delta. -/
theorem rev_propose_inversion {st : DAGState} {arcs : List (Nat × Nat)}
    {scores : Nat → ParentSetDistribution} {kEdge kI kJ : Nat}
    {s' : DAGState} {acc diff : ℝ}
    (h : rev_move.propose st arcs scores kEdge kI kJ = some (s', acc, diff)) :
    ∃ (i j : Nat) (ps_i ps_j : Finset Nat)
      (so_i so_j z_i z_star_j z_star_i z_j sn_i sn_j : ℝ),
      arcs.getD (kEdge % arcs.length) (0, 0) = (i, j) ∧
      arcs.length ≠ 0 ∧
      (scores i).lookup (st.parents i) = some so_i ∧
      (scores j).lookup (st.parents j) = some so_j ∧
      (scores i).log_z (fun ps => decide (Disjoint ps (st.descFinset i)))
        = some z_i ∧
      (scores j).log_z (fun ps => decide (i ∈ ps)
          && decide (Disjoint ps (st.descFinset j))) = some z_star_j ∧
      (scores i).sample (fun ps => decide (j ∈ ps)
          && decide (Disjoint ps ((st.orphan [i, j]).descFinset i))) kI
        = some (ps_i, z_star_i) ∧
      (scores j).sample (fun ps => decide (Disjoint ps
          (((st.orphan [i, j]).addEdges (ps_i.image (fun p => (p, i)))).descFinset j))) kJ
        = some (ps_j, z_j) ∧
      s' = (((st.orphan [i, j]).addEdges (ps_i.image (fun p => (p, i)))).addEdges (ps_j.image (fun p => (p, j)))) ∧
      (scores i).lookup (s'.parents i) = some sn_i ∧
      (scores j).lookup (s'.parents j) = some sn_j ∧
      acc = (z_star_i + z_j - z_star_j - z_i)
        + Real.log ((arcs.length : ℝ) / (s'.adj.card : ℝ)) ∧
      diff = (sn_i + sn_j) - (so_i + so_j) := by
  unfold rev_move.propose at h
  split at h
  · exact Option.noConfusion h
  · rename_i hlen0
    dsimp only [DAGState.copy] at h
    split at h
    all_goals try exact Option.noConfusion h
    rename_i so_i so_j hso_i hso_j
    split at h
    all_goals try exact Option.noConfusion h
    rename_i z_i z_star_j hz_i hz_star_j
    split at h
    all_goals try exact Option.noConfusion h
    rename_i ps_i z_star_i hsample_i
    split at h
    all_goals try exact Option.noConfusion h
    rename_i ps_j z_j hsample_j
    split at h
    all_goals try exact Option.noConfusion h
    rename_i sn_i sn_j hsn_i hsn_j
    have h' := Option.some.inj h
    have hs := congrArg Prod.fst h'
    have hA := congrArg (fun t : DAGState × ℝ × ℝ => t.2.1) h'
    have hD := congrArg (fun t : DAGState × ℝ × ℝ => t.2.2) h'
    dsimp only at hs hA hD
    refine ⟨_, _, ps_i, ps_j, so_i, so_j, z_i, z_star_j, z_star_i, z_j,
      sn_i, sn_j, rfl, hlen0, hso_i, hso_j, hz_i, hz_star_j,
      hsample_i, hsample_j, hs.symm, ?_, ?_, ?_, hD.symm⟩
    · rw [← hs]
      exact hsn_i
    · rw [← hs]
      exact hsn_j
    · rw [← hs]
      exact hA.symm

/-! ### Claim C1: the reversal acceptance ratio -/

/-- C1: a successful edge-reversal proposal on the edge neighborhood of
a well-formed state reports a log acceptance ratio equal to
`(z_star_i + z_j - z_star_j - z_i) + log(n_edges(S) / n_edges(S'))`,
where `z_i` is the log-partition of `i`'s distribution conditioned on
disjointness from `i`'s pre-mutation descendants, `z_star_j` the
log-partition of `j`'s distribution conditioned on membership of `i`
and disjointness from `j`'s pre-mutation descendants, and `z_star_i`,
`z_j` are the log-normalizers reported by the two conditioned sampling
steps performed on the orphaned copy. -/
theorem C1_reversal_acceptance_ratio (st : DAGState) (hwf : st.WF)
    (scores : Nat → ParentSetDistribution) (kEdge kI kJ : Nat)
    (s' : DAGState) (acc diff : ℝ)
    (h : rev_move.propose st st.edgeList scores kEdge kI kJ
        = some (s', acc, diff)) :
    ∃ (i j : Nat) (ps_i ps_j : Finset Nat) (z_i z_star_j z_star_i z_j : ℝ),
      (i, j) ∈ st.adj ∧
      st.edgeList.getD (kEdge % st.edgeList.length) (0, 0) = (i, j) ∧
      (scores i).log_z (fun ps => decide (Disjoint ps (st.descFinset i)))
        = some z_i ∧
      (scores j).log_z (fun ps => decide (i ∈ ps)
          && decide (Disjoint ps (st.descFinset j))) = some z_star_j ∧
      (scores i).sample (fun ps => decide (j ∈ ps)
          && decide (Disjoint ps ((st.orphan [i, j]).descFinset i))) kI
        = some (ps_i, z_star_i) ∧
      (scores j).sample (fun ps => decide (Disjoint ps
          (((st.orphan [i, j]).addEdges (ps_i.image (fun p => (p, i)))).descFinset j))) kJ
        = some (ps_j, z_j) ∧
      acc = (z_star_i + z_j - z_star_j - z_i)
        + Real.log ((st.adj.card : ℝ) / (s'.adj.card : ℝ)) := by
  obtain ⟨i, j, ps_i, ps_j, so_i, so_j, z_i, z_star_j, z_star_i, z_j, sn_i, sn_j,
    hget, hlen0, _, _, hz_i, hz_star_j, hsample_i, hsample_j, _, _, _, hacc, _⟩ :=
    rev_propose_inversion h
  have hlt : kEdge % st.edgeList.length < st.edgeList.length :=
    Nat.mod_lt _ (Nat.pos_of_ne_zero hlen0)
  have hmem : (i, j) ∈ st.adj := by
    have hgd : st.edgeList.getD (kEdge % st.edgeList.length) (0, 0)
        ∈ st.edgeList := by
      rw [List.getD_eq_getElem _ _ hlt]
      exact List.getElem_mem hlt
    rw [hget] at hgd
    exact (mem_edgeList hwf).1 hgd
  refine ⟨i, j, ps_i, ps_j, z_i, z_star_j, z_star_i, z_j, hmem, hget,
    hz_i, hz_star_j, hsample_i, hsample_j, ?_⟩
  rw [hacc, edgeList_length hwf]

/-! ### Claim C4: shape of the reversal result -/

theorem addEdges_into_adj (st : DAGState) (ps : Finset Nat) (v : Nat) :
    (st.addEdges (ps.image (fun p => (p, v)))).adj = addInto st.adj ps v := rfl

theorem orphan_WF {st : DAGState} (hwf : st.WF) (vs : List Nat) :
    (st.orphan vs).WF := by
  intro e he
  exact hwf e (Finset.mem_filter.1 he).1

theorem addEdges_into_WF {st : DAGState} (hwf : st.WF) {ps : Finset Nat}
    {v : Nat} (hps : ps ⊆ Finset.range st.n) (hv : v < st.n) :
    (st.addEdges (ps.image (fun p => (p, v)))).WF := by
  intro e he
  have he' : e ∈ addInto st.adj ps v := by
    rw [← addEdges_into_adj]
    exact he
  rcases Finset.mem_union.1 he' with h1 | h1
  · exact hwf e h1
  · obtain ⟨p, hp, rfl⟩ := Finset.mem_image.1 h1
    exact ⟨Finset.mem_range.1 (hps hp), hv⟩

theorem addEdges_into_acyclic {st : DAGState} (hacyc : Acyclic st.adj)
    {ps : Finset Nat} {v : Nat} (hv : v ∉ ps)
    (hdisj : Disjoint ps (st.descFinset v)) (hwf : st.WF) :
    Acyclic (st.addEdges (ps.image (fun p => (p, v)))).adj := by
  rw [addEdges_into_adj]
  apply acyclic_addInto hacyc
  intro p hp hrtg
  rcases (Relation.reflTransGen_iff_eq_or_transGen).1 hrtg with heq | htg
  · exact hv (heq ▸ hp)
  · exact (Finset.disjoint_left.1 hdisj hp) (reaches_mem_descFinset hwf htg)

/-- C4: on a well-formed acyclic state with at least one edge, and score
tables respecting the enumeration invariant (no key contains its
variable, keys within the node range), a successful reversal proposal
returns an acyclic state in which the chosen edge `(i, j)` no longer
exists in its original direction and `j` is among `i`'s new parents
(forced by the conditioned sampling on the orphaned copy). -/
theorem C4_reversal_result (st : DAGState) (hwf : st.WF)
    (hacyc : Acyclic st.adj) (scores : Nat → ParentSetDistribution)
    (hkeys : ∀ v : Nat, ∀ kv ∈ (scores v).table,
      v ∉ kv.1 ∧ kv.1 ⊆ Finset.range st.n)
    (kEdge kI kJ : Nat) (s' : DAGState) (acc diff : ℝ)
    (h : rev_move.propose st st.edgeList scores kEdge kI kJ
        = some (s', acc, diff)) :
    ∃ i j : Nat, (i, j) ∈ st.adj ∧
      st.edgeList.getD (kEdge % st.edgeList.length) (0, 0) = (i, j) ∧
      Acyclic s'.adj ∧ (i, j) ∉ s'.adj ∧ j ∈ s'.parents i := by
  obtain ⟨i, j, ps_i, ps_j, so_i, so_j, z_i, z_star_j, z_star_i, z_j, sn_i, sn_j,
    hget, hlen0, _, _, _, _, hsample_i, hsample_j, hs, _, _, _, _⟩ :=
    rev_propose_inversion h
  have hlt : kEdge % st.edgeList.length < st.edgeList.length :=
    Nat.mod_lt _ (Nat.pos_of_ne_zero hlen0)
  have hmem : (i, j) ∈ st.adj := by
    have hgd : st.edgeList.getD (kEdge % st.edgeList.length) (0, 0)
        ∈ st.edgeList := by
      rw [List.getD_eq_getElem _ _ hlt]
      exact List.getElem_mem hlt
    rw [hget] at hgd
    exact (mem_edgeList hwf).1 hgd
  have hij : i ≠ j := by
    intro hEq
    subst hEq
    exact hacyc i (Relation.TransGen.single hmem)
  have hi_lt : i < st.n := (hwf _ hmem).1
  have hj_lt : j < st.n := (hwf _ hmem).2
  obtain ⟨⟨r_i, hr_i⟩, hcond_i⟩ := sample_key hsample_i
  obtain ⟨⟨r_j, hr_j⟩, hcond_j⟩ := sample_key hsample_j
  rw [Bool.and_eq_true, decide_eq_true_eq, decide_eq_true_eq] at hcond_i
  rw [decide_eq_true_eq] at hcond_j
  obtain ⟨hjmem, hdisj_i⟩ := hcond_i
  have hkey_i := hkeys i (ps_i, r_i) hr_i
  have hkey_j := hkeys j (ps_j, r_j) hr_j
  have hwf1 : (st.orphan [i, j]).WF := orphan_WF hwf _
  have hacyc1 : Acyclic (st.orphan [i, j]).adj :=
    acyclic_mono (Finset.filter_subset _ _) hacyc
  have hwf2 : ((st.orphan [i, j]).addEdges
      (ps_i.image (fun p => (p, i)))).WF :=
    addEdges_into_WF hwf1 hkey_i.2 hi_lt
  have hacyc2 : Acyclic ((st.orphan [i, j]).addEdges
      (ps_i.image (fun p => (p, i)))).adj :=
    addEdges_into_acyclic hacyc1 hkey_i.1 hdisj_i hwf1
  have hacyc3 : Acyclic (((st.orphan [i, j]).addEdges
      (ps_i.image (fun p => (p, i)))).addEdges
      (ps_j.image (fun p => (p, j)))).adj :=
    addEdges_into_acyclic hacyc2 hkey_j.1 hcond_j hwf2
  have hji : (j, i) ∈ ((st.orphan [i, j]).addEdges
      (ps_i.image (fun p => (p, i)))).adj := by
    rw [addEdges_into_adj]
    exact Finset.mem_union_right _ (Finset.mem_image.2 ⟨j, hjmem, rfl⟩)
  have hidesc : i ∈ ((st.orphan [i, j]).addEdges
      (ps_i.image (fun p => (p, i)))).descFinset j :=
    reaches_mem_descFinset hwf2 (Relation.TransGen.single hji)
  have hinotps_j : i ∉ ps_j :=
    fun hin => (Finset.disjoint_left.1 hcond_j hin) hidesc
  have hs3 : s'.adj = addInto ((st.orphan [i, j]).addEdges
      (ps_i.image (fun p => (p, i)))).adj ps_j j := by
    rw [hs, addEdges_into_adj]
  refine ⟨i, j, hmem, hget, ?_, ?_, ?_⟩
  · rw [hs]
    exact hacyc3
  · rw [hs3]
    intro hmem'
    rcases Finset.mem_union.1 hmem' with h1 | h1
    · rw [addEdges_into_adj] at h1
      rcases Finset.mem_union.1 h1 with h2 | h2
      · have hfilt := (Finset.mem_filter.1 h2).2
        simp at hfilt
      · obtain ⟨p, hp, hpe⟩ := Finset.mem_image.1 h2
        exact hij ((Prod.mk.injEq .. ▸ hpe).2)
    · obtain ⟨p, hp, hpe⟩ := Finset.mem_image.1 h1
      have hpi : p = i := (Prod.mk.injEq .. ▸ hpe).1
      exact hinotps_j (hpi ▸ hp)
  · apply mem_parents.2
    rw [hs3]
    exact Finset.mem_union_left _ hji

theorem C1_reversal_acceptance_ratio_witness :
    ∃ (s' : DAGState) (acc diff : ℝ),
      rev_move.propose stA stA.edgeList scoresB 0 0 0 = some (s', acc, diff) ∧
      ∃ (i j : Nat) (ps_i ps_j : Finset Nat) (z_i z_star_j z_star_i z_j : ℝ),
        (i, j) ∈ stA.adj ∧
        stA.edgeList.getD (0 % stA.edgeList.length) (0, 0) = (i, j) ∧
        (scoresB i).log_z (fun ps => decide (Disjoint ps (stA.descFinset i)))
          = some z_i ∧
        (scoresB j).log_z (fun ps => decide (i ∈ ps)
            && decide (Disjoint ps (stA.descFinset j))) = some z_star_j ∧
        (scoresB i).sample (fun ps => decide (j ∈ ps)
            && decide (Disjoint ps ((stA.orphan [i, j]).descFinset i))) 0
          = some (ps_i, z_star_i) ∧
        (scoresB j).sample (fun ps => decide (Disjoint ps
            (((stA.orphan [i, j]).addEdges (ps_i.image (fun p => (p, i)))).descFinset j))) 0
          = some (ps_j, z_j) ∧
        acc = (z_star_i + z_j - z_star_j - z_i)
          + Real.log ((stA.adj.card : ℝ) / (s'.adj.card : ℝ)) :=
  ⟨_, _, _, rfl, C1_reversal_acceptance_ratio stA (by decide) scoresB 0 0 0 _ _ _ rfl⟩

theorem C4_reversal_result_witness :
    ∃ (s' : DAGState) (acc diff : ℝ),
      rev_move.propose stA stA.edgeList scoresB 0 0 0 = some (s', acc, diff) ∧
      ∃ i j : Nat, (i, j) ∈ stA.adj ∧
        stA.edgeList.getD (0 % stA.edgeList.length) (0, 0) = (i, j) ∧
        Acyclic s'.adj ∧ (i, j) ∉ s'.adj ∧ j ∈ s'.parents i :=
  ⟨_, _, _, rfl, C4_reversal_result stA (by decide)
    (acyclic_of_increasing (by decide)) scoresB
    (by
      intro v kv hkv
      by_cases hv : v = 0
      · subst hv
        simp [scoresB] at hkv
        rcases hkv with rfl | rfl
        · exact ⟨by decide, by decide⟩
        · exact ⟨by decide, by decide⟩
      · simp [scoresB, hv] at hkv
        rcases hkv with rfl | rfl
        · exact ⟨Finset.not_mem_empty v, Finset.empty_subset _⟩
        · refine ⟨?_, by decide⟩
          intro hmem
          exact hv (Finset.mem_singleton.1 hmem))
    0 0 0 _ _ _ rfl⟩

/-! ### Claim C5: availability of moves with empty neighborhoods -/

/-- C5 (evaluation of the code at the failing input): on a single-node
state the add/delete move has an empty neighborhood in both components,
yet the availability flag computed from the Python length of the
`moves` result is true, because `basic_move.moves` returns a 2-tuple
whose length is 2 whatever the lists hold.  The sampler therefore does
not zero this move's probability entry; it delegates to `propose`,
which fails on the division by the empty neighborhood size (`none`),
instead of raising the dedicated no-moves error. -/
theorem C5_empty_neighborhood_not_zeroed :
    basic_move.addList stOne = [] ∧ stOne.edgeList = [] ∧
    pyLen (basic_move.moves stOne) = 2 ∧
    (decide (pyLen (basic_move.moves stOne) ≠ 0)) = true ∧
    (propBasic.sample stOne 0 false 0 0 0).2 = none := by
  exact ⟨rfl, rfl, rfl, rfl, rfl⟩

/-! ### Claim C9: mutation of the input state -/

/-- C9 (counterexample to the claim as stated): a `sample` call stamps
the proposal's configured fan-in onto the *input* state (the code
assigns `state.fan_in_ = self.fan_in` before enumerating moves), so a
field of the input changes across a call even when the proposal
succeeds: here the input's fan-in field 3 becomes 2. -/
theorem C9_input_restamped_counterexample :
    (propRev.sample stB 0 false 0 0 0).1 ≠ stB ∧
    (propRev.sample stB 0 false 0 0 0).1.fanIn = 2 ∧
    stB.fanIn = 3 ∧
    ((propRev.sample stB 0 false 0 0 0).2).isSome = true := by
  exact ⟨by decide, rfl, rfl, rfl⟩

/-- C9 (amended): across every `sample` call, the input state's edge
structure and node count are untouched (all edge mutation happens on
the deep copy), and the only field that can change is the stamped
fan-in, which is overwritten with the proposal's configured value. -/
theorem C9_input_adj_never_mutated (P : DAGProposal) (st : DAGState)
    (mIdx : Nat) (mv : Bool) (k kI kJ : Nat) :
    (P.sample st mIdx mv k kI kJ).1.adj = st.adj ∧
    (P.sample st mIdx mv k kI kJ).1.n = st.n ∧
    ((P.sample st mIdx mv k kI kJ).1.fanIn = st.fanIn ∨
      (P.sample st mIdx mv k kI kJ).1.fanIn = P.fan_in) := by
  unfold DAGProposal.sample
  split
  · exact ⟨rfl, rfl, Or.inl rfl⟩
  · dsimp only
    split
    · exact ⟨rfl, rfl, Or.inr rfl⟩
    · split
      · split
        · exact ⟨rfl, rfl, Or.inr rfl⟩
        · exact ⟨rfl, rfl, Or.inr rfl⟩
      · exact ⟨rfl, rfl, Or.inr rfl⟩
